import Mathlib

/-
Verification of the heuristic text-to-entry parser of the babel-dashboard
repository (class SmartEntryParser in src/main.py).  Python strings are
modelled as List Char; machine behaviour of the handful of str and re
operations the parser uses is embedded explicitly below.  Whitespace is
modelled as the six ASCII whitespace characters, which is what the CPython
regex \s and str.strip use on the ASCII inputs considered here.
-/

namespace Babel

/-- The six ASCII whitespace characters recognised by Python str.strip and
by the regex class backslash-s on ASCII text. -/
def isPySpace (c : Char) : Bool :=
  c = ' ' ∨ c = '\t' ∨ c = '\n' ∨ c = '\r' ∨ c = Char.ofNat 11 ∨ c = Char.ofNat 12

/-- ASCII lower-casing of one character, as Python str.lower on ASCII. -/
def lowerCh (c : Char) : Char :=
  if 'A' ≤ c ∧ c ≤ 'Z' then Char.ofNat (c.toNat + 32) else c

/-- ASCII lower-casing of a string, as Python str.lower on ASCII. -/
def pyLower (l : List Char) : List Char := l.map lowerCh

/-- Strip characters satisfying p from both ends, the shape of Python
str.strip. -/
def stripBy (p : Char → Bool) (l : List Char) : List Char :=
  ((l.dropWhile p).reverse.dropWhile p).reverse

/-- Python str.strip with no argument: remove whitespace from both ends. -/
def pyStrip (l : List Char) : List Char := stripBy isPySpace l

/-- Python str.strip with an explicit character set. -/
def stripSet (set : List Char) (l : List Char) : List Char :=
  stripBy (fun c => set.contains c) l

/-- Does the first list occur as a leading block of the second one. -/
def startsWithL : List Char → List Char → Bool
  | [], _ => true
  | _ :: _, [] => false
  | a :: as, b :: bs => a = b && startsWithL as bs

/-- Python substring membership, needle in hay; the empty needle is always
contained, as in Python. -/
def containsSub (needle : List Char) : List Char → Bool
  | [] => needle.isEmpty
  | c :: t => startsWithL needle (c :: t) || containsSub needle t

/-- Count occurrences of one character, as Python str.count for a single
character. -/
def countCh (c : Char) (l : List Char) : Nat := l.count c

/-- Python str.replace(needle, empty) driven by fuel; the top level call
removeAll supplies fuel equal to the length of the text, which is enough
because every step consumes at least one character.  Removal is
non-overlapping and left to right, exactly as str.replace; replacing the
empty needle by the empty string is the identity in Python as well. -/
def removeAllGo : Nat → List Char → List Char → List Char
  | _, _, [] => []
  | 0, _, cs => cs
  | f + 1, needle, c :: cs =>
    if needle ≠ [] ∧ startsWithL needle (c :: cs) then
      removeAllGo f needle (List.drop needle.length (c :: cs))
    else
      c :: removeAllGo f needle cs

/-- Python str.replace(needle, empty string) on the whole text. -/
def removeAll (needle hay : List Char) : List Char :=
  removeAllGo hay.length needle hay

/-- Split on every occurrence of one separator character, keeping empty
pieces: Python str.split(sep). -/
def splitChGo (sep : Char) : List Char → List Char → List (List Char)
  | [], acc => [acc.reverse]
  | c :: cs, acc =>
    if c = sep then acc.reverse :: splitChGo sep cs []
    else splitChGo sep cs (c :: acc)

/-- Python str.split with a one-character separator. -/
def splitCh (sep : Char) (l : List Char) : List (List Char) :=
  splitChGo sep l []

/-- Split on any character of a set, keeping empty pieces: re.split with a
character class. -/
def splitAnyGo (seps : List Char) : List Char → List Char → List (List Char)
  | [], acc => [acc.reverse]
  | c :: cs, acc =>
    if seps.contains c then acc.reverse :: splitAnyGo seps cs []
    else splitAnyGo seps cs (c :: acc)

/-- re.split on a character class, keeping empty pieces. -/
def splitAny (seps : List Char) (l : List Char) : List (List Char) :=
  splitAnyGo seps l []

/-- Whitespace tokenisation dropping empty pieces: Python str.split with no
argument. -/
def splitWsGo : List Char → List Char → List (List Char)
  | [], acc => if acc.isEmpty then [] else [acc.reverse]
  | c :: cs, acc =>
    if isPySpace c then
      if acc.isEmpty then splitWsGo cs [] else acc.reverse :: splitWsGo cs []
    else splitWsGo cs (c :: acc)

/-- Python str.split() with no argument. -/
def pySplitWs (l : List Char) : List (List Char) := splitWsGo l []

/-- Python str.isupper restricted to ASCII: no lower-case letter occurs and
at least one upper-case letter occurs. -/
def pyIsUpper (l : List Char) : Bool :=
  l.all (fun c => !('a' ≤ c && c ≤ 'z')) && l.any (fun c => 'A' ≤ c && c ≤ 'Z')

/-- Join a list of strings with single spaces: Python space.join. -/
def joinSpace (ls : List (List Char)) : List Char :=
  List.intercalate [' '] ls

/-
Segment splitting.  parse_unstructured_text splits the raw text with
re.split of the multiline alternation: a blank line pattern (newline,
whitespace run, newline), a line-initial integer followed by a period, or a
line-initial bullet character followed by whitespace.  The scan below walks
the text character by character, trying the three alternatives in the order
of the Python pattern at each position, mirroring the leftmost-match and
first-alternative semantics of the re module.  Backtracking of the greedy
whitespace star inside the blank line pattern makes that alternative consume
up to the last newline of the maximal whitespace run that follows the first
newline; the two other alternatives have no internal choice points.
-/

/-- Match of the blank-line alternative at the current position: a newline
whose following maximal whitespace run contains another newline.  Returns
the number of consumed characters (through the last newline of the run). -/
def blankMatch : List Char → Option (Nat × Bool)
  | '\n' :: rest =>
    let w := rest.takeWhile isPySpace
    let v := w.reverse.takeWhile (fun c => c ≠ '\n')
    if v.length < w.length then some (1 + (w.length - v.length), true) else none
  | _ => none

/-- Match of the line-initial enumeration alternative: digits then a
period, only at the beginning of a line. -/
def enumMatch (bol : Bool) (cs : List Char) : Option (Nat × Bool) :=
  if bol then
    match cs with
    | c :: _ =>
      if c.isDigit then
        let d := cs.takeWhile Char.isDigit
        match (cs.drop d.length).head? with
        | some '.' => some (d.length + 1, false)
        | _ => none
      else none
    | [] => none
  else none

/-- Match of the line-initial bullet alternative: a bullet character then a
nonempty whitespace run, only at the beginning of a line; the run is
consumed greedily as by the regex. -/
def bulletMatch (bol : Bool) (cs : List Char) : Option (Nat × Bool) :=
  if bol then
    match cs with
    | c :: rest =>
      if c = '-' ∨ c = '•' ∨ c = '*' then
        let w := rest.takeWhile isPySpace
        if w.isEmpty then none else some (1 + w.length, w.getLastD ' ' = '\n')
      else none
    | [] => none
  else none

/-- One step of the split scan: the three alternatives in the order of the
Python pattern. -/
def splitMatch (bol : Bool) (cs : List Char) : Option (Nat × Bool) :=
  (blankMatch cs).orElse fun _ => (enumMatch bol cs).orElse fun _ => bulletMatch bol cs

/-- Fuel-driven split scan; the fuel is the length of the remaining text,
which always suffices because every step consumes at least one character. -/
def splitSegGo : Nat → List Char → Bool → List Char → List (List Char)
  | _, [], _, acc => [acc.reverse]
  | 0, cs, _, acc => [acc.reverse ++ cs]
  | f + 1, c :: cs, bol, acc =>
    match splitMatch bol (c :: cs) with
    | some (n, bol2) => acc.reverse :: splitSegGo f (List.drop n (c :: cs)) bol2 []
    | none => splitSegGo f cs (c = '\n') (c :: acc)

/-- The re.split call of parse_unstructured_text on the raw text. -/
def splitSegmentsPy (text : List Char) : List (List Char) :=
  splitSegGo text.length text true []

/-
The parser object.  SmartEntryParser.__init__ installs two fixed keyword
tables on the instance and never mutates them afterwards; the methods only
read them.
-/

/-- The type_keywords table installed by SmartEntryParser.__init__, in
dictionary insertion order. -/
def typeKeywordList : List (List Char × List (List Char)) :=
  [ ("word".data, ["word".data, "term".data, "vocabulary".data, "definition".data]),
    ("phrase".data, ["phrase".data, "saying".data, "expression".data, "quote".data]),
    ("author".data, ["author".data, "writer".data, "said".data, "argues".data, "writes".data]),
    ("concept".data, ["concept".data, "idea".data, "theory".data, "framework".data, "approach".data]),
    ("excerpt".data, ["excerpt".data, "passage".data, "text".data, "reading".data]) ]

/-- The category_keywords table installed by SmartEntryParser.__init__, in
dictionary insertion order. -/
def categoryKeywordList : List (List Char × List (List Char)) :=
  [ ("Literary Terms".data, ["literary".data, "genre".data, "narrative".data, "writing".data, "essay".data]),
    ("Philosophical Thinkers".data, ["philosophy".data, "philosophical".data, "thinker".data, "argues".data]),
    ("Cultural Critique".data, ["culture".data, "society".data, "critique".data, "analysis".data]),
    ("Writing Process".data, ["writing".data, "process".data, "editing".data, "draft".data]),
    ("Political Rhetoric".data, ["political".data, "politics".data, "rhetoric".data, "speech".data]),
    ("Legal Language".data, ["legal".data, "law".data, "court".data, "doctrine".data]),
    ("Translation Philosophy".data, ["translation".data, "translate".data, "language".data]),
    ("Material Metaphor".data, ["metaphor".data, "symbolism".data, "represents".data]) ]

/-- The immutable attribute state of a SmartEntryParser instance. -/
structure SmartParser where
  type_keywords : List (List Char × List (List Char))
  category_keywords : List (List Char × List (List Char))
deriving DecidableEq

/-- The module-level instance smartParserInst = SmartEntryParser(). -/
def smartParserInst : SmartParser :=
  { type_keywords := typeKeywordList, category_keywords := categoryKeywordList }

/-- One draft entry dictionary as built by extract_entry_from_segment. -/
structure Entry where
  type : List Char
  title : List Char
  content : List Char
  source : List Char
  whyItStuck : List Char
  extendedNote : List Char
  category : List Char
  tags : List (List Char)
  batch : List Char
  dateAdded : List Char
deriving DecidableEq

/-
Title extraction, extract_title.
-/

/-- re.search for a double-quoted group on one line: leftmost double quote
followed by a nonempty run of non-quote characters and a closing quote; the
captured group is the run.  On failure at one position the search moves one
character to the right, exactly as re.search. -/
def quotedGroup : List Char → Option (List Char)
  | [] => none
  | c :: rest =>
    if c = '"' then
      let run := rest.takeWhile (fun x => x ≠ '"')
      if !run.isEmpty && (rest.drop run.length).head? = some '"' then some run
      else quotedGroup rest
    else quotedGroup rest

/-- extract_title: quoted text on the first line, else a short all-caps
first line, else a first line of at most five words and under fifty
characters, else the first clause before a sentence terminator when it is
under one hundred characters, else the first fifty characters. -/
def extractTitle (lines : List (List Char)) : List Char :=
  let first := lines.headD []
  match quotedGroup first with
  | some q => q
  | none =>
    if pyIsUpper first ∧ first.length < 100 then first
    else if (pySplitWs first).length ≤ 5 ∧ first.length < 50 then first
    else
      let sentences := splitAny ['.', '!', '?'] first
      match sentences with
      | s0 :: _ => if s0.length < 100 then pyStrip s0 else pyStrip (first.take 50)
      | [] => pyStrip (first.take 50)

/-
Content extraction, extract_content.  The loop keeps a flag recording
whether the title has been consumed; on the first line containing the title
it applies str.replace of the title by the empty string, which removes
every occurrence in that line, strips space, hyphen and colon characters
from both ends, and keeps the remainder only when nonempty.  All other
lines are kept unchanged, because the elif condition of the source is the
negation of the if condition.
-/

/-- The loop body of extract_content over the line list. -/
def contentLoop (title : List Char) : List (List Char) → Bool → List (List Char)
  | [], _ => []
  | line :: rest, found =>
    if !found && containsSub title line then
      let remaining := stripSet [' ', '-', ':'] (removeAll title line)
      (if remaining.isEmpty then [] else [remaining]) ++ contentLoop title rest true
    else line :: contentLoop title rest found

/-- extract_content: run the loop, fall back to all lines but the first
when the loop kept nothing, then join with single spaces and strip. -/
def extractContent (lines : List (List Char)) (title : List Char) : List Char :=
  let cl := contentLoop title lines false
  let cl2 := if cl.isEmpty ∧ ¬lines.isEmpty then lines.drop 1 else cl
  pyStrip (joinSpace cl2)

/-
Type and category scoring, determine_type and determine_category.
-/

/-- Score every table row by the number of its keywords occurring as
substrings of the lower-cased text, preserving dictionary insertion
order. -/
def scoreTable (kws : List (List Char × List (List Char))) (tl : List Char) :
    List (List Char × Nat) :=
  kws.map fun p => (p.1, p.2.countP (fun k => containsSub k tl))

/-- Add a bonus to one key of the score list, the dictionary update of the
source; every bumped key is present in the score dictionaries built by the
parser, so an in-place update is the faithful model. -/
def bumpScore (scores : List (List Char × Nat)) (k : List Char) (d : Nat) :
    List (List Char × Nat) :=
  scores.map fun p => if p.1 = k then (p.1, p.2 + d) else p

/-- The running-maximum scan of Python max over dictionary keys with the
score as key function: later entries replace the current best only on a
strictly greater score, so the first maximal key wins. -/
def argmaxGo (bk : List Char) (bv : Nat) : List (List Char × Nat) → List Char × Nat
  | [] => (bk, bv)
  | (k, v) :: rest => if bv < v then argmaxGo k v rest else argmaxGo bk bv rest

/-- Python max(scores, key=scores.get) over the insertion-ordered score
list. -/
def firstArgmax : List (List Char × Nat) → List Char
  | [] => []
  | (k, v) :: rest => (argmaxGo k v rest).1

/-- max over the score values, zero on the empty list; score values are
natural numbers so the zero seed is neutral. -/
def maxVals (s : List (List Char × Nat)) : Nat :=
  (s.map Prod.snd).foldl max 0

/-- determine_type: keyword scores, then the three bonus heuristics, then
the first maximal key; the concept fallback fires only on an empty score
dictionary, which the fixed table never produces. -/
def determineType (p : SmartParser) (text : List Char) : List Char :=
  let tl := pyLower text
  let s0 := scoreTable p.type_keywords tl
  let s1 := if '"' ∈ text ∧ 2 ≤ countCh '"' text then bumpScore s0 "excerpt".data 2 else s0
  let s2 :=
    if ["definition".data, "means".data, "refers to".data].any (fun w => containsSub w tl)
    then bumpScore s1 "word".data 2 else s1
  let s3 := if 50 < (pySplitWs text).length then bumpScore s2 "excerpt".data 1 else s2
  if s3.isEmpty then "concept".data else firstArgmax s3

/-- determine_category: keyword scores, no bonuses; the maximal key is
returned only when the maximal score is positive, else General. -/
def determineCategory (p : SmartParser) (text : List Char) : List Char :=
  let s := scoreTable p.category_keywords (pyLower text)
  if s.isEmpty then "General".data
  else if 0 < maxVals s then firstArgmax s else "General".data

/-
Source extraction, extract_source.  Five regular expressions are tried in a
fixed order with re.search under IGNORECASE and MULTILINE; the first group
of the first successful search wins and is stripped, and the sentinel Smart
Import is returned when every search fails.  Each pattern is embedded as a
match-at-position function together with the generic leftmost search of
re.search.
-/

/-- A separator character of the regex class holding colon and
whitespace. -/
def isSepCh (c : Char) : Bool := c = ':' || isPySpace c

/-- The backtracking of the greedy separator plus inside the keyword
patterns: with the maximal separator run of length m after the keyword,
try run lengths m down to one until a non-newline character follows, and
capture greedily to the end of the line from there. -/
def sepCapture (rest : List Char) : Nat → Option (List Char)
  | 0 => none
  | k + 1 =>
    match (rest.drop (k + 1)).head? with
    | some c =>
      if c = '\n' then sepCapture rest k
      else some ((rest.drop (k + 1)).takeWhile (fun x => x ≠ '\n'))
    | none => sepCapture rest k

/-- Match at the current position of one keyword pattern: the keyword
case-insensitively, one or more separator characters, and a nonempty
capture of non-newline characters taken from the original text. -/
def kwMatchAt (kw : List Char) (cs : List Char) : Option (List Char) :=
  if (cs.take kw.length).map lowerCh = kw then
    let rest := cs.drop kw.length
    sepCapture rest (rest.takeWhile isSepCh).length
  else none

/-- Match at the current position of the em-dash pattern: an em dash, a
nonempty run free of em dashes and newlines, and line end right after. -/
def emdashMatchAt : List Char → Option (List Char)
  | '—' :: rest =>
    let run := rest.takeWhile (fun c => c ≠ '—' ∧ c ≠ '\n')
    if run.isEmpty then none
    else
      match (rest.drop run.length).head? with
      | none => some run
      | some '\n' => some run
      | some _ => none
  | _ => none

/-- Match at the current position of the trailing parenthetical pattern: an
opening parenthesis, a nonempty run free of closing parentheses, a closing
parenthesis, and line end right after. -/
def parenMatchAt : List Char → Option (List Char)
  | '(' :: rest =>
    let run := rest.takeWhile (fun c => c ≠ ')')
    if run.isEmpty then none
    else
      match rest.drop run.length with
      | ')' :: tl =>
        match tl.head? with
        | none => some run
        | some '\n' => some run
        | some _ => none
      | _ => none
  | _ => none

/-- The leftmost-position scan of re.search over a match-at-position
function. -/
def reSearch (matchAt : List Char → Option (List Char)) : List Char → Option (List Char)
  | [] => matchAt []
  | c :: cs =>
    match matchAt (c :: cs) with
    | some g => some g
    | none => reSearch matchAt cs

/-- The five compiled searches of extract_source in the priority order of
the source_patterns list. -/
def sourceMatchers : List (List Char → Option (List Char)) :=
  [ reSearch (kwMatchAt "source".data),
    reSearch (kwMatchAt "from".data),
    reSearch (kwMatchAt "via".data),
    reSearch emdashMatchAt,
    reSearch parenMatchAt ]

/-- The pattern loop of extract_source: the stripped first group of the
first successful search, else the Smart Import sentinel. -/
def firstSourceHit : List (List Char → Option (List Char)) → List Char → List Char
  | [], _ => "Smart Import".data
  | m :: ms, text =>
    match m text with
    | some g => pyStrip g
    | none => firstSourceHit ms text

/-- extract_source on the whole segment text. -/
def extractSource (text : List Char) : List Char :=
  firstSourceHit sourceMatchers text

/-
The per-segment extractor and the top-level parse.  The current date read
through datetime.now in the source is injected as the parameter today, as
the specification prescribes for deterministic testing.
-/

/-- The line list of extract_entry_from_segment: split on newlines, strip
every line, drop empty lines. -/
def segmentLines (segment : List Char) : List (List Char) :=
  ((splitCh '\n' segment).map pyStrip).filter (fun l => !l.isEmpty)

/-- extract_entry_from_segment: None on an empty line list, else the draft
entry dictionary with the five extracted fields, empty whyItStuck,
extendedNote and tags, and the batch label made of the fixed prefix and the
injected date. -/
def extractEntryFromSegment (p : SmartParser) (today : List Char)
    (segment : List Char) : Option Entry :=
  let lines := segmentLines segment
  if lines.isEmpty then none
  else
    let title := extractTitle lines
    some
      { type := determineType p segment
        title := title
        content := extractContent lines title
        source := extractSource segment
        whyItStuck := []
        extendedNote := []
        category := determineCategory p segment
        tags := []
        batch := "Smart Import ".data ++ today
        dateAdded := today }

/-- The stripped nonempty pieces of the regex split, before the length
filter of the segment loop. -/
def strippedSegments (text : List Char) : List (List Char) :=
  ((splitSegmentsPy text).map pyStrip).filter (fun s => !s.isEmpty)

/-- The segments that survive the length guard and enter per-segment
extraction. -/
def segmentsForExtraction (text : List Char) : List (List Char) :=
  (strippedSegments text).filter (fun s => decide (20 ≤ s.length))

/-- parse_unstructured_text: split, strip, drop short segments, extract one
draft entry from each remaining segment, dropping the None results. -/
def parse_unstructured_text (p : SmartParser) (text today : List Char) : List Entry :=
  (segmentsForExtraction text).filterMap (extractEntryFromSegment p today)

/-- One invocation of the extractor on a parser instance; the methods of
SmartEntryParser never assign to self, so the instance state is returned
unchanged, which this definition records. -/
def invoke (p : SmartParser) (text today : List Char) : SmartParser × List Entry :=
  (p, parse_unstructured_text p text today)

/-- An all-blank entry record, used only to read off list heads in closed
witness statements. -/
def emptyEntry : Entry :=
  { type := [], title := [], content := [], source := [], whyItStuck := []
    extendedNote := [], category := [], tags := [], batch := [], dateAdded := [] }

/-- The input used by the counterexample to claim C1: one segment whose
first line opens with a double-quoted run of one hundred and ten
characters. -/
def c1Input : List Char :=
  '"' :: (List.replicate 110 'a' ++ ('"' :: " and more words here to pad".data))

/-- Decomposition of a line list around the first line that contains the
title as a substring. -/
def splitAtFirstContaining (title : List Char) :
    List (List Char) → Option (List (List Char) × List Char × List (List Char))
  | [] => none
  | l :: ls =>
    if containsSub title l then some ([], l, ls)
    else (splitAtFirstContaining title ls).map (fun q => (l :: q.1, q.2.1, q.2.2))

/-- The corrected description of extract_content, written from the amended
claim: in the first line containing the title, every occurrence of the
title is deleted and the remainder is stripped of space, hyphen and colon
characters on both ends and kept only when nonempty; every other line,
including later lines still containing the title, is kept unchanged; when
nothing at all is kept, all lines except the first are used instead; the
kept lines are joined with single spaces and stripped. -/
def extractContentDescribed (lines : List (List Char)) (title : List Char) : List Char :=
  let kept :=
    match splitAtFirstContaining title lines with
    | none => lines
    | some (pre, l, post) =>
      let r := stripSet [' ', '-', ':'] (removeAll title l)
      pre ++ (if r.isEmpty then [] else [r]) ++ post
  let kept2 := if kept.isEmpty ∧ ¬lines.isEmpty then lines.drop 1 else kept
  pyStrip (joinSpace kept2)

/-
Helper lemmas about the string primitives.
-/

theorem dropWhile_head_not (p : Char → Bool) (l : List Char) (c : Char)
    (h : (l.dropWhile p).head? = some c) : p c = false := by
  induction l with
  | nil => simp [List.dropWhile] at h
  | cons a l ih =>
    rw [List.dropWhile_cons] at h
    by_cases hp : p a = true
    · simp [hp] at h; exact ih h
    · simp [hp] at h
      simp [← h, Bool.eq_false_iff.mpr hp]

theorem dropWhile_eq_self_of_head (p : Char → Bool) (l : List Char)
    (h : ∀ c, l.head? = some c → p c = false) : l.dropWhile p = l := by
  cases l with
  | nil => rfl
  | cons a l =>
    rw [List.dropWhile_cons]
    simp [h a rfl]

theorem getLast?_dropWhile (p : Char → Bool) (l : List Char)
    (h : l.dropWhile p ≠ []) : (l.dropWhile p).getLast? = l.getLast? := by
  induction l with
  | nil => simp [List.dropWhile] at h
  | cons a l ih =>
    rw [List.dropWhile_cons] at h ⊢
    by_cases hp : p a = true
    · simp only [hp, if_true] at h ⊢
      rw [ih h]
      have hl : l ≠ [] := by
        intro he; rw [he] at h; simp [List.dropWhile] at h
      cases l with
      | nil => exact absurd rfl hl
      | cons b l2 => rw [List.getLast?_cons_cons]
    · simp [hp]

theorem stripBy_idem (p : Char → Bool) (l : List Char) :
    stripBy p (stripBy p l) = stripBy p l := by
  unfold stripBy
  set a := l.dropWhile p with ha
  set b := a.reverse.dropWhile p with hb
  by_cases hbn : b = []
  · simp [hbn]
  · have hhead : ∀ c, b.reverse.head? = some c → p c = false := by
      intro c hc
      rw [List.head?_reverse] at hc
      rw [hb, getLast?_dropWhile p a.reverse hbn, List.getLast?_reverse] at hc
      exact dropWhile_head_not p l c (ha ▸ hc)
    rw [dropWhile_eq_self_of_head p b.reverse hhead]
    rw [List.reverse_reverse]
    have hbhead : ∀ c, b.head? = some c → p c = false := by
      intro c hc
      exact dropWhile_head_not p a.reverse c (hb ▸ hc)
    rw [dropWhile_eq_self_of_head p b hbhead]

theorem stripBy_ne_nil_of_head (p : Char → Bool) (l : List Char) (c : Char)
    (h : l.head? = some c) (hc : p c = false) : stripBy p l ≠ [] := by
  unfold stripBy
  have h1 : l.dropWhile p = l := dropWhile_eq_self_of_head p l (by
    intro d hd; rw [h] at hd; cases hd; exact hc)
  rw [h1]
  intro he
  have h2 : l.reverse.dropWhile p = [] := by
    have := congrArg List.reverse he
    simpa using this
  rw [List.dropWhile_eq_nil_iff] at h2
  have hcmem : c ∈ l.reverse := by
    rw [List.mem_reverse]
    exact List.mem_of_mem_head? h
  have := h2 c hcmem
  rw [hc] at this
  exact Bool.noConfusion this

theorem argmaxGo_first (l : List (List Char × Nat)) :
    ∀ bk bv,
      (argmaxGo bk bv l = (bk, bv) ∧ ∀ r ∈ l, r.2 ≤ bv) ∨
      (∃ pre q post, l = pre ++ q :: post ∧ bv < q.2 ∧ (∀ r ∈ pre, r.2 < q.2) ∧
        (∀ r ∈ post, r.2 ≤ q.2) ∧ argmaxGo bk bv l = q) := by
  induction l with
  | nil =>
    intro bk bv
    exact Or.inl ⟨rfl, by simp⟩
  | cons p l ih =>
    intro bk bv
    obtain ⟨k, v⟩ := p
    rw [argmaxGo]
    by_cases hlt : bv < v
    · rw [if_pos hlt]
      rcases ih k v with ⟨heq, hall⟩ | ⟨pre, q, post, hsplit, hvq, hpre, hpost, heq⟩
      · exact Or.inr ⟨[], (k, v), l, by simp, hlt, by simp, hall, heq⟩
      · refine Or.inr ⟨(k, v) :: pre, q, post, by rw [hsplit, List.cons_append],
          Nat.lt_trans hlt hvq, ?_, hpost, heq⟩
        intro r hr
        rcases List.mem_cons.mp hr with he | hm
        · rw [he]; exact hvq
        · exact hpre r hm
    · rw [if_neg hlt]
      have hvb : v ≤ bv := Nat.le_of_not_lt hlt
      rcases ih bk bv with ⟨heq, hall⟩ | ⟨pre, q, post, hsplit, hvq, hpre, hpost, heq⟩
      · refine Or.inl ⟨heq, ?_⟩
        intro r hr
        rcases List.mem_cons.mp hr with he | hm
        · rw [he]; exact hvb
        · exact hall r hm
      · refine Or.inr ⟨(k, v) :: pre, q, post, by rw [hsplit, List.cons_append],
          hvq, ?_, hpost, heq⟩
        intro r hr
        rcases List.mem_cons.mp hr with he | hm
        · rw [he]; exact Nat.lt_of_le_of_lt hvb hvq
        · exact hpre r hm

theorem argmaxGo_snd (l : List (List Char × Nat)) :
    ∀ bk bv, (argmaxGo bk bv l).2 = (l.map Prod.snd).foldl max bv := by
  induction l with
  | nil => intro bk bv; simp [argmaxGo]
  | cons p l ih =>
    intro bk bv
    obtain ⟨k, v⟩ := p
    rw [argmaxGo]
    by_cases h : bv < v
    · rw [if_pos h]
      rw [ih k v]
      simp [Nat.max_eq_right (Nat.le_of_lt h)]
    · rw [if_neg h]
      rw [ih bk bv]
      simp [Nat.max_eq_left (Nat.le_of_not_lt h)]

theorem maxVals_cons (q : List Char × Nat) (rest : List (List Char × Nat)) :
    maxVals (q :: rest) = (rest.map Prod.snd).foldl max q.2 := by
  unfold maxVals
  simp [Nat.max_eq_right (Nat.zero_le q.2)]

theorem firstArgmax_first (l : List (List Char × Nat)) (h : l ≠ []) :
    ∃ pre q post, l = pre ++ q :: post ∧ (∀ r ∈ pre, r.2 < q.2) ∧
      (∀ r ∈ post, r.2 ≤ q.2) ∧ q.2 = maxVals l ∧ firstArgmax l = q.1 := by
  cases l with
  | nil => exact absurd rfl h
  | cons p rest =>
    obtain ⟨k, v⟩ := p
    have hmax : maxVals ((k, v) :: rest) = (argmaxGo k v rest).2 := by
      rw [maxVals_cons, argmaxGo_snd]
    rcases argmaxGo_first rest k v
      with ⟨heq, hall⟩ | ⟨pre, q, post, hsplit, hvq, hpre, hpost, heq⟩
    · refine ⟨[], (k, v), rest, by simp, by simp, hall, ?_, ?_⟩
      · rw [hmax, heq]
      · rw [firstArgmax, heq]
    · refine ⟨(k, v) :: pre, q, post, by rw [hsplit, List.cons_append], ?_, hpost, ?_, ?_⟩
      · intro r hr
        rcases List.mem_cons.mp hr with he | hm
        · rw [he]; exact hvq
        · exact hpre r hm
      · rw [hmax, heq]
      · rw [firstArgmax, heq]

theorem argmaxGo_allZero (l : List (List Char × Nat)) :
    ∀ bk, (∀ q ∈ l, q.2 = 0) → argmaxGo bk 0 l = (bk, 0) := by
  induction l with
  | nil => intro bk _; rfl
  | cons p l ih =>
    intro bk h
    obtain ⟨k, v⟩ := p
    have hv : v = 0 := h (k, v) (List.mem_cons_self _ _)
    rw [argmaxGo, hv]
    simp only [Nat.lt_irrefl, if_false]
    exact ih bk (fun q hq => h q (List.mem_cons_of_mem _ hq))

theorem firstArgmax_allZero (p : List Char × Nat) (l : List (List Char × Nat))
    (h : ∀ q ∈ p :: l, q.2 = 0) : firstArgmax (p :: l) = p.1 := by
  obtain ⟨k, v⟩ := p
  have hv : v = 0 := h (k, v) (List.mem_cons_self _ _)
  rw [firstArgmax, hv, argmaxGo_allZero l k (fun q hq => h q (List.mem_cons_of_mem _ hq))]

theorem quotedGroup_ne_nil (l : List Char) (q : List Char)
    (h : quotedGroup l = some q) : q ≠ [] := by
  induction l with
  | nil => simp [quotedGroup] at h
  | cons c rest ih =>
    rw [quotedGroup] at h
    by_cases hc : c = '"'
    · simp only [hc, if_true] at h
      by_cases hrun : (!(rest.takeWhile (fun x => x ≠ '"')).isEmpty &&
          (rest.drop (rest.takeWhile (fun x => x ≠ '"')).length).head? = some '"') = true
      · rw [if_pos hrun] at h
        cases h
        have := (Bool.and_eq_true _ _).mp hrun |>.1
        simpa [List.isEmpty_iff] using this
      · rw [if_neg hrun] at h
        exact ih h
    · rw [if_neg hc] at h
      exact ih h

/-
The claims.
-/

/-- Stripping never lengthens a string. -/
theorem stripBy_length_le (p : Char → Bool) (l : List Char) :
    (stripBy p l).length ≤ l.length := by
  unfold stripBy
  rw [List.length_reverse]
  calc ((l.dropWhile p).reverse.dropWhile p).length
      ≤ (l.dropWhile p).reverse.length :=
        List.Sublist.length_le (List.dropWhile_sublist p)
    _ = (l.dropWhile p).length := List.length_reverse _
    _ ≤ l.length := List.Sublist.length_le (List.dropWhile_sublist p)

/-- Splitting a string whose first character is not a separator yields a
first piece beginning with that character. -/
theorem splitAnyGo_shape (seps : List Char) (cs : List Char) :
    ∀ acc, ∃ s tl, splitAnyGo seps cs acc = (acc.reverse ++ s) :: tl := by
  induction cs with
  | nil =>
    intro acc
    exact ⟨[], [], by simp [splitAnyGo]⟩
  | cons c cs ih =>
    intro acc
    rw [splitAnyGo]
    by_cases hc : seps.contains c
    · rw [if_pos hc]
      exact ⟨[], splitAnyGo seps cs [], by simp⟩
    · rw [if_neg hc]
      obtain ⟨s, tl, hs⟩ := ih (c :: acc)
      refine ⟨c :: s, tl, ?_⟩
      rw [hs]
      simp

set_option maxRecDepth 100000 in
/-- Counterexample to claim C1: on the c1Input raw text the extractor
yields exactly one draft entry and its title is one hundred and ten
characters long, exceeding the claimed bound of one hundred; the quoted
branch of extract_title copies the quoted text without any length check. -/
theorem c1_counterexample :
    ((parse_unstructured_text smartParserInst c1Input "2025-06-01".data).map
        (fun e => e.title.length)) = [110] ∧
    ¬(110 ≤ 100) := by
  constructor
  · decide
  · decide

/-- Claim C1 as amended: the extracted title is shorter than one hundred
characters whenever the first line carries no double-quoted substring;
the double-quoted branch returns the quoted text itself, bounded only by
the first line. -/
theorem c1_title_short_outside_quoted (first : List Char) (rest : List (List Char))
    (h : quotedGroup first = none) :
    (extractTitle (first :: rest)).length < 100 := by
  have htake : (pyStrip (first.take 50)).length < 100 := by
    have h1 : (pyStrip (first.take 50)).length ≤ (first.take 50).length :=
      stripBy_length_le _ _
    have h2 : (first.take 50).length ≤ 50 := by
      rw [List.length_take]
      exact Nat.min_le_left _ _
    omega
  simp only [extractTitle, List.headD_cons, h]
  by_cases h2 : pyIsUpper first ∧ first.length < 100
  · rw [if_pos h2]
    exact h2.2
  · rw [if_neg h2]
    by_cases h3 : (pySplitWs first).length ≤ 5 ∧ first.length < 50
    · rw [if_pos h3]
      omega
    · rw [if_neg h3]
      cases hs : splitAny ['.', '!', '?'] first with
      | nil => exact htake
      | cons s0 tl =>
        dsimp only
        by_cases h4 : s0.length < 100
        · rw [if_pos h4]
          exact Nat.lt_of_le_of_lt (stripBy_length_le _ _) h4
        · rw [if_neg h4]
          exact htake

/-- Witness for the amended claim C1 at a concrete quote-free first
line. -/
theorem c1_witness :
    quotedGroup "BILDUNGSROMAN".data = none ∧
    (extractTitle ["BILDUNGSROMAN".data]).length < 100 :=
  ⟨by decide, c1_title_short_outside_quoted "BILDUNGSROMAN".data [] (by decide)⟩

/-- Counterexample to claim C2: a nonempty trimmed line list on which
extract_title returns the empty string, because the first line starts
with a sentence terminator and falls through to the sentence-splitting
branch, whose first clause is empty. -/
theorem c2_counterexample :
    extractTitle [".aaaa bbbb cccc dddd eeee ffff gggg".data] = [] ∧
    ".aaaa bbbb cccc dddd eeee ffff gggg".data ≠ [] ∧
    pyStrip ".aaaa bbbb cccc dddd eeee ffff gggg".data =
      ".aaaa bbbb cccc dddd eeee ffff gggg".data := by
  refine ⟨by decide, by decide, by decide⟩

/-- Claim C2 as amended: for a nonempty line list whose first line starts
with a character that is neither whitespace nor a sentence terminator,
extract_title returns a nonempty string; only a first line beginning with
a terminator can make the sentence-splitting branch return the empty
title. -/
theorem c2_title_nonempty (c : Char) (cs : List Char) (rest : List (List Char))
    (hsp : isPySpace c = false) (hdot : c ≠ '.') (hbang : c ≠ '!') (hq : c ≠ '?') :
    extractTitle ((c :: cs) :: rest) ≠ [] := by
  have hstrip : ∀ l : List Char, pyStrip (c :: l) ≠ [] := fun l =>
    stripBy_ne_nil_of_head isPySpace (c :: l) c rfl hsp
  simp only [extractTitle, List.headD_cons]
  cases hqg : quotedGroup (c :: cs) with
  | some q => exact quotedGroup_ne_nil _ q hqg
  | none =>
    by_cases h2 : pyIsUpper (c :: cs) ∧ (c :: cs).length < 100
    · rw [if_pos h2]
      exact List.cons_ne_nil c cs
    · rw [if_neg h2]
      by_cases h3 : (pySplitWs (c :: cs)).length ≤ 5 ∧ (c :: cs).length < 50
      · rw [if_pos h3]
        exact List.cons_ne_nil c cs
      · rw [if_neg h3]
        have hnc : ¬((['.', '!', '?'] : List Char).contains c = true) := by
          simp only [List.contains_cons, List.contains_nil, Bool.or_eq_true, beq_iff_eq]
          rintro (hc | hc | ⟨hc | hf⟩)
          · exact hdot hc
          · exact hbang hc
          · exact hq hc
          · exact Bool.noConfusion hf
        have hsplit : ∃ s tl, splitAny ['.', '!', '?'] (c :: cs) = (c :: s) :: tl := by
          unfold splitAny
          rw [splitAnyGo, if_neg hnc]
          obtain ⟨s, tl, hs⟩ := splitAnyGo_shape ['.', '!', '?'] cs [c]
          exact ⟨s, tl, by rw [hs]; rfl⟩
        obtain ⟨s, tl, hs⟩ := hsplit
        rw [hs]
        dsimp only
        by_cases h4 : (c :: s).length < 100
        · rw [if_pos h4]
          exact hstrip s
        · rw [if_neg h4]
          have hta : List.take 50 (c :: cs) = c :: List.take 49 cs := rfl
          rw [hta]
          exact hstrip (cs.take 49)

/-- Witness for the amended claim C2 at a concrete first line. -/
theorem c2_witness : extractTitle [('B' :: "ILDUNGSROMAN".data)] ≠ [] :=
  c2_title_nonempty 'B' "ILDUNGSROMAN".data [] (by decide) (by decide) (by decide)
    (by decide)

/-- Every row of a score table over an all-miss keyword table scores
zero. -/
theorem scoreTable_zero (kws : List (List Char × List (List Char))) (tl : List Char)
    (h : ∀ q ∈ kws, ∀ k ∈ q.2, containsSub k tl = false) :
    ∀ r ∈ scoreTable kws tl, r.2 = 0 := by
  intro r hr
  obtain ⟨p, hp, hfp⟩ := List.mem_map.mp hr
  rw [← hfp]
  simp only
  rw [List.countP_eq_zero]
  intro k hk
  simp [h p hp k hk]

/-- Counterexample to claim C3: a concrete segment in which no type
keyword occurs in the lower-cased text and no bonus heuristic applies,
yet determine_type returns word, not the claimed default concept. -/
theorem c3_counterexample :
    (∀ q ∈ smartParserInst.type_keywords, ∀ k ∈ q.2,
      containsSub k (pyLower "zzzz yyyy xxxx wwww vvvv uuuu".data) = false) ∧
    countCh '"' "zzzz yyyy xxxx wwww vvvv uuuu".data < 2 ∧
    (∀ w ∈ ["definition".data, "means".data, "refers to".data],
      containsSub w (pyLower "zzzz yyyy xxxx wwww vvvv uuuu".data) = false) ∧
    (pySplitWs "zzzz yyyy xxxx wwww vvvv uuuu".data).length ≤ 50 ∧
    determineType smartParserInst "zzzz yyyy xxxx wwww vvvv uuuu".data = "word".data ∧
    determineType smartParserInst "zzzz yyyy xxxx wwww vvvv uuuu".data ≠ "concept".data := by
  decide

/-- Claim C3 as amended: when no type keyword occurs as a substring of the
lower-cased segment and no bonus heuristic applies, determine_type returns
word, the first key of the fixed type mapping in insertion order, because
the score dictionary always carries all five types and the running maximum
keeps the first maximal key; the concept fallback of the source is
unreachable. -/
theorem c3_all_zero_scores_give_word (text : List Char)
    (h1 : ∀ q ∈ smartParserInst.type_keywords, ∀ k ∈ q.2,
      containsSub k (pyLower text) = false)
    (h2 : countCh '"' text < 2)
    (h3 : ∀ w ∈ ["definition".data, "means".data, "refers to".data],
      containsSub w (pyLower text) = false)
    (h4 : (pySplitWs text).length ≤ 50) :
    determineType smartParserInst text = "word".data := by
  have hzero : ∀ r ∈ scoreTable smartParserInst.type_keywords (pyLower text), r.2 = 0 :=
    scoreTable_zero _ _ h1
  have hc1 : ¬('"' ∈ text ∧ 2 ≤ countCh '"' text) :=
    fun hc => absurd hc.2 (Nat.not_le.mpr h2)
  have hc2 : ¬(["definition".data, "means".data, "refers to".data].any
      (fun w => containsSub w (pyLower text)) = true) := by
    rw [List.any_eq_true]
    rintro ⟨w, hw, hcw⟩
    rw [h3 w hw] at hcw
    exact Bool.noConfusion hcw
  have hc3 : ¬(50 < (pySplitWs text).length) := Nat.not_lt.mpr h4
  have hcons : scoreTable smartParserInst.type_keywords (pyLower text) =
      ("word".data, (["word".data, "term".data, "vocabulary".data, "definition".data]).countP
        (fun k => containsSub k (pyLower text))) ::
      scoreTable (typeKeywordList.drop 1) (pyLower text) := rfl
  simp only [determineType]
  rw [if_neg hc1, if_neg hc2, if_neg hc3]
  have hne : ¬((scoreTable smartParserInst.type_keywords (pyLower text)).isEmpty = true) := by
    rw [hcons]
    simp
  rw [if_neg hne, hcons, firstArgmax_allZero _ _ (by rw [← hcons]; exact hzero)]

/-- Witness for the amended claim C3 at the concrete keyword-free
segment. -/
theorem c3_witness :
    determineType smartParserInst "zzzz yyyy xxxx wwww vvvv uuuu".data = "word".data :=
  c3_all_zero_scores_give_word "zzzz yyyy xxxx wwww vvvv uuuu".data
    (by decide) (by decide) (by decide) (by decide)

/-- Counterexample to claim C4: the fixed category keyword mapping has
exactly eight keys, not the claimed ten. -/
theorem c4_counterexample :
    (smartParserInst.category_keywords.map Prod.fst).length = 8 ∧
    ¬((smartParserInst.category_keywords.map Prod.fst).length = 10) := by
  decide

/-- Claim C4 as amended: determine_category returns the first category of
the fixed mapping achieving the maximal lower-cased substring keyword
score when that maximum is positive, and General otherwise; the positive
case exhibits the score row of the returned category with every earlier
row scoring strictly less and every later row scoring no more, which pins
the result to the first maximal key in insertion order; the possible
non-General outputs are the keys of the mapping, of which there are
exactly eight. -/
theorem c4_category_max_rule (text : List Char) :
    ((scoreTable smartParserInst.category_keywords (pyLower text)).map Prod.fst =
      smartParserInst.category_keywords.map Prod.fst) ∧
    (smartParserInst.category_keywords.map Prod.fst).length = 8 ∧
    ((maxVals (scoreTable smartParserInst.category_keywords (pyLower text)) = 0 ∧
        determineCategory smartParserInst text = "General".data) ∨
      (0 < maxVals (scoreTable smartParserInst.category_keywords (pyLower text)) ∧
        ∃ pre q post,
          scoreTable smartParserInst.category_keywords (pyLower text) =
            pre ++ q :: post ∧
          (∀ r ∈ pre, r.2 < q.2) ∧ (∀ r ∈ post, r.2 ≤ q.2) ∧
          q.2 = maxVals (scoreTable smartParserInst.category_keywords (pyLower text)) ∧
          determineCategory smartParserInst text = q.1)) := by
  have hne : ¬((scoreTable smartParserInst.category_keywords (pyLower text)).isEmpty = true) := by
    simp [scoreTable, smartParserInst, categoryKeywordList]
  refine ⟨?_, rfl, ?_⟩
  · rw [scoreTable, List.map_map]
    have : (Prod.fst ∘ fun p : List Char × List (List Char) =>
        (p.1, p.2.countP (fun k => containsSub k (pyLower text)))) = Prod.fst := by
      funext p
      rfl
    rw [this]
  · rcases Nat.eq_zero_or_pos (maxVals (scoreTable smartParserInst.category_keywords (pyLower text)))
      with hz | hp
    · refine Or.inl ⟨hz, ?_⟩
      simp only [determineCategory]
      rw [if_neg hne, if_neg (by rw [hz]; exact Nat.lt_irrefl 0)]
    · obtain ⟨pre, q, post, hsplit, hpre, hpost, hq2, hq1⟩ :=
        firstArgmax_first (scoreTable smartParserInst.category_keywords (pyLower text))
          (by intro he; rw [he] at hne; exact hne rfl)
      refine Or.inr ⟨hp, pre, q, post, hsplit, hpre, hpost, hq2, ?_⟩
      simp only [determineCategory]
      rw [if_neg hne, if_pos hp, hq1]

/-- After the title has been consumed, the loop of extract_content keeps
every remaining line unchanged. -/
theorem contentLoop_found (title : List Char) (ls : List (List Char)) :
    contentLoop title ls true = ls := by
  induction ls with
  | nil => rfl
  | cons l ls ih =>
    rw [contentLoop]
    simp only [Bool.not_true, Bool.false_and, if_neg (Bool.false_ne_true)]
    rw [ih]

/-- The loop of extract_content splits the line list at the first line
containing the title: that line is replaced by its stripped remainder
after all title occurrences are removed, kept only when nonempty, and all
other lines pass through unchanged. -/
theorem contentLoop_split (title : List Char) (lines : List (List Char)) :
    contentLoop title lines false =
      match splitAtFirstContaining title lines with
      | none => lines
      | some (pre, l, post) =>
        pre ++
          (if (stripSet [' ', '-', ':'] (removeAll title l)).isEmpty then []
            else [stripSet [' ', '-', ':'] (removeAll title l)]) ++ post := by
  induction lines with
  | nil => rfl
  | cons l ls ih =>
    rw [contentLoop, splitAtFirstContaining]
    by_cases hc : containsSub title l = true
    · rw [if_pos hc]
      simp only [Bool.not_false, Bool.true_and, if_pos hc]
      rw [contentLoop_found]
      rfl
    · rw [if_neg hc]
      simp only [Bool.not_false, Bool.true_and,
        if_neg (fun h => hc h)]
      rw [ih]
      cases hs : splitAtFirstContaining title ls with
      | none => rfl
      | some q => rfl

/-- Counterexample to claim C5: a line in which the computed title, the
quoted word dog, occurs three times.  The claim demands that only the
first occurrence be deleted and the later occurrences in the same line be
kept, so the content would still contain dog; the source applies
str.replace, which removes every occurrence in that line, and the content
contains none. -/
theorem c5_counterexample :
    extractTitle ["\"dog\" dog dog and more words here".data] = "dog".data ∧
    containsSub "dog".data
      (extractContent ["\"dog\" dog dog and more words here".data] "dog".data) = false ∧
    extractContent ["\"dog\" dog dog and more words here".data] "dog".data =
      "\"\"   and more words here".data := by
  refine ⟨by decide, by decide, by decide⟩

/-- Claim C5 as amended: extract_content equals the description in which
the first line containing the title loses every occurrence of it, with
space, hyphen and colon characters stripped from both ends of the
remainder, later lines are kept unchanged, the all-but-first-line
fallback applies when nothing was kept, and the kept lines are joined
with single spaces and stripped. -/
theorem c5_content_replace_all (lines : List (List Char)) (title : List Char) :
    extractContent lines title = extractContentDescribed lines title := by
  simp only [extractContent, extractContentDescribed]
  rw [contentLoop_split]

/-- The pattern loop of extract_source either fails every search and
returns the sentinel, or splits the matcher list around the first
successful search and returns its stripped group. -/
theorem firstSourceHit_cases (text : List Char) (ms : List (List Char → Option (List Char))) :
    ((∀ m ∈ ms, m text = none) ∧ firstSourceHit ms text = "Smart Import".data) ∨
    (∃ pre m post cap, ms = pre ++ m :: post ∧ (∀ m2 ∈ pre, m2 text = none) ∧
      m text = some cap ∧ firstSourceHit ms text = pyStrip cap) := by
  induction ms with
  | nil => exact Or.inl ⟨by simp, rfl⟩
  | cons m ms ih =>
    cases hm : m text with
    | some g =>
      refine Or.inr ⟨[], m, ms, g, rfl, by simp, hm, ?_⟩
      simp [firstSourceHit, hm]
    | none =>
      rcases ih with ⟨hall, hval⟩ | ⟨pre, m2, post, cap, hms, hpre, hm2, hval⟩
      · refine Or.inl ⟨?_, ?_⟩
        · intro m2 hm2
          rcases List.mem_cons.mp hm2 with he | hmem
          · rw [he]; exact hm
          · exact hall m2 hmem
        · simp only [firstSourceHit, hm]
          exact hval
      · refine Or.inr ⟨m :: pre, m2, post, cap, by rw [hms, List.cons_append], ?_, hm2, ?_⟩
        · intro m3 hm3
          rcases List.mem_cons.mp hm3 with he | hmem
          · rw [he]; exact hm
          · exact hpre m3 hmem
        · simp only [firstSourceHit, hm]
          exact hval

/-- Claim C6: extract_source tries exactly five case-insensitive patterns
in a fixed priority order, returns the stripped first group of the first
pattern that matches, and returns the literal Smart Import when all five
fail. -/
theorem c6_source_priority_order (text : List Char) :
    sourceMatchers.length = 5 ∧
    (((∀ m ∈ sourceMatchers, m text = none) ∧
        extractSource text = "Smart Import".data) ∨
      (∃ pre m post cap, sourceMatchers = pre ++ m :: post ∧
        (∀ m2 ∈ pre, m2 text = none) ∧ m text = some cap ∧
        extractSource text = pyStrip cap)) :=
  ⟨rfl, firstSourceHit_cases text sourceMatchers⟩

/-- Claim C7: every segment that enters per-segment extraction has trimmed
length at least twenty characters, and the draft entries of a parse are
exactly the per-segment extractions over those segments, so no draft entry
derives from a shorter segment. -/
theorem c7_segment_length_invariant (text today : List Char) (s : List Char)
    (hs : s ∈ segmentsForExtraction text) :
    20 ≤ s.length ∧ pyStrip s = s ∧
    parse_unstructured_text smartParserInst text today =
      (segmentsForExtraction text).filterMap (extractEntryFromSegment smartParserInst today) := by
  refine ⟨?_, ?_, rfl⟩
  · have h2 := (List.mem_filter.mp hs).2
    simpa using h2
  · have h1 : s ∈ strippedSegments text := (List.mem_filter.mp hs).1
    have h2 : s ∈ (splitSegmentsPy text).map pyStrip := (List.mem_filter.mp h1).1
    obtain ⟨x, _, hx⟩ := List.mem_map.mp h2
    rw [← hx]
    unfold pyStrip
    exact stripBy_idem isPySpace x

/-- Witness for claim C7 at a concrete thirty character input. -/
theorem c7_witness :
    "This is a long enough segment.".data ∈
      segmentsForExtraction "This is a long enough segment.".data ∧
    20 ≤ "This is a long enough segment.".data.length := by
  have hmem : "This is a long enough segment.".data ∈
      segmentsForExtraction "This is a long enough segment.".data := by decide
  exact ⟨hmem,
    (c7_segment_length_invariant "This is a long enough segment.".data
      "2025-06-01".data _ hmem).1⟩

/-- Claim C8: the empty raw text parses to the empty entry list, and so
does any raw text whose stripped split pieces are all shorter than twenty
characters; the extractor signals nothing and raises nothing, it just
returns the empty sequence. -/
theorem c8_degenerate_input (text today : List Char)
    (h : ∀ s ∈ strippedSegments text, s.length < 20) :
    parse_unstructured_text smartParserInst text today = [] ∧
    parse_unstructured_text smartParserInst [] today = [] := by
  constructor
  · unfold parse_unstructured_text segmentsForExtraction
    have hf : (strippedSegments text).filter (fun s => decide (20 ≤ s.length)) = [] := by
      rw [List.filter_eq_nil_iff]
      intro a ha
      simp [Nat.not_le.mpr (h a ha)]
    rw [hf]
    rfl
  · rfl

/-- Witness for claim C8 at a concrete five character input. -/
theorem c8_witness :
    (∀ s ∈ strippedSegments "short".data, s.length < 20) ∧
    parse_unstructured_text smartParserInst "short".data "2025-06-01".data = [] := by
  have hh : ∀ s ∈ strippedSegments "short".data, s.length < 20 := by decide
  exact ⟨hh, (c8_degenerate_input "short".data "2025-06-01".data hh).1⟩

/-- Claim C9: the extractor is a pure function of the raw text and the
injected date; an invocation leaves the parser instance unchanged, so a
second invocation on the same instance, text and date returns the same
entry sequence.  Purity holds by construction of this embedding, because
no method of the source class assigns to the instance state. -/
theorem c9_idempotent_invocations (text today : List Char) :
    (invoke (invoke smartParserInst text today).1 text today).2 =
      (invoke smartParserInst text today).2 ∧
    (invoke smartParserInst text today).1 = smartParserInst :=
  ⟨rfl, rfl⟩

/-- Claim C10: every produced draft entry carries the two extra fields
whyItStuck and extendedNote, and both are always the empty string. -/
theorem c10_blank_extra_fields (text today : List Char) (e : Entry)
    (he : e ∈ parse_unstructured_text smartParserInst text today) :
    e.whyItStuck = [] ∧ e.extendedNote = [] := by
  unfold parse_unstructured_text at he
  obtain ⟨s, _, hs⟩ := List.mem_filterMap.mp he
  unfold extractEntryFromSegment at hs
  by_cases hl : (segmentLines s).isEmpty
  · rw [if_pos hl] at hs
    exact Option.noConfusion hs
  · rw [if_neg hl] at hs
    injection hs with hse
    rw [← hse]
    exact ⟨rfl, rfl⟩

/-- Witness for claim C10 at a concrete parse that yields one entry. -/
theorem c10_witness :
    ((parse_unstructured_text smartParserInst "This is a long enough segment.".data
        "2025-06-01".data).headD emptyEntry ∈
      parse_unstructured_text smartParserInst "This is a long enough segment.".data
        "2025-06-01".data) ∧
    ((parse_unstructured_text smartParserInst "This is a long enough segment.".data
        "2025-06-01".data).headD emptyEntry).whyItStuck = [] := by
  have hmem : (parse_unstructured_text smartParserInst "This is a long enough segment.".data
      "2025-06-01".data).headD emptyEntry ∈
      parse_unstructured_text smartParserInst "This is a long enough segment.".data
        "2025-06-01".data := by decide
  exact ⟨hmem, (c10_blank_extra_fields "This is a long enough segment.".data
    "2025-06-01".data _ hmem).1⟩

end Babel
